import Mathlib

/-!
Verification of the filter-selection and cell-population-extraction logic of
`cellCnn/plotting.py` (function `plot_results_2class` and its helper
`plot_selected_subset`).  Numeric arrays are embedded as lists of rationals,
cell matrices as lists of rows, and the numpy operations used by the code
(elementwise product, sum, argsort, boolean masking, ECDF evaluation,
linspace) are translated to executable Lean functions.
-/

namespace CellCnn

/-- `np.sum(w.reshape(1, -1) * x, axis=1)` for a single cell row `x`:
the sum of the elementwise products of the weight vector and the marker
values. -/
def dotSum (w x : List ℚ) : ℚ :=
  (List.zipWith (fun a b => a * b) w x).sum

/-- The per-cell filter response computed at plotting.py lines 185-186:
`g = np.sum(w.reshape(1, -1) * x, axis=1) + b` followed by
`g = g * (g > 0)` (multiplication by the boolean mask). -/
def cellResponse (w : List ℚ) (b : ℚ) (x : List ℚ) : ℚ :=
  let g := dotSum w x + b
  g * (if 0 < g then 1 else 0)

/-- `w = filters[i_filter, :nmark]` (plotting.py line 183): the first
`nmark` entries of a filter row. -/
def filterWeights (row : List ℚ) (nmark : ℕ) : List ℚ :=
  row.take nmark

/-- `b = filters[i_filter, nmark]` (plotting.py line 184): the entry of a
filter row at index `nmark`. -/
def filterBias (row : List ℚ) (nmark : ℕ) : ℚ :=
  row.getD nmark 0

/-- `filters[:, -1]` for a single row: the last entry of a filter row,
read by the score computation (plotting.py lines 147 and 150). -/
def lastWeight (row : List ℚ) : ℚ :=
  row.getLastD 0

/-- The greedy prefix length of the loop at plotting.py lines 153-158
(and the identical loop at lines 262-267): on a score list sorted in
decreasing order, the first element is always kept, and scanning ranks
`i = 1, 2, ...` the scan keeps rank `i` while
`scores[i-1] - scores[i] < p * scores[i-1]` and breaks at the first rank
violating it. -/
def keepLen (p : ℚ) : List ℚ → ℕ
  | [] => 0
  | [_] => 1
  | a :: b :: rest =>
      if a - b < p * a then 1 + keepLen p (b :: rest) else 1

lemma take_getD_append (row : List ℚ) (nmark : ℕ) (h : row.length = nmark + 1) :
    row = row.take nmark ++ [row.getD nmark 0] := by
  induction row generalizing nmark with
  | nil => simp at h
  | cons a rest ih =>
      cases nmark with
      | zero =>
          simp only [List.length_cons] at h
          have : rest = [] := List.length_eq_zero.mp (by omega)
          subst this
          simp [List.getD]
      | succ m =>
          simp only [List.length_cons] at h
          have := ih m (by omega)
          simpa [List.take_succ_cons, List.getD_cons_succ] using congrArg (a :: ·) this

lemma getD_eq_getLastD (row : List ℚ) (nmark : ℕ) (h : row.length = nmark + 1) :
    row.getD nmark 0 = row.getLastD 0 := by
  induction row generalizing nmark with
  | nil => simp at h
  | cons a rest ih =>
      cases nmark with
      | zero =>
          simp only [List.length_cons] at h
          have : rest = [] := List.length_eq_zero.mp (by omega)
          subst this
          rfl
      | succ m =>
          simp only [List.length_cons] at h
          have hne : rest ≠ [] := by
            intro hnil; rw [hnil] at h; simp at h
          rw [List.getD_cons_succ, ih m (by omega)]
          cases rest with
          | nil => exact absurd rfl hne
          | cons b rest2 => rfl

/-- `np.argsort(dist)[::-1]`: the indices `0, ..., dist.length - 1`
sorted so that the corresponding scores are in decreasing order. -/
def argsortDesc (l : List ℚ) : List ℕ :=
  List.insertionSort (fun i j => l.getD j 0 ≤ l.getD i 0) (List.range l.length)

/-- `dist = dist[sorted_idx]` (plotting.py line 152): the score list
rearranged in decreasing order. -/
def sortedScores (l : List ℚ) : List ℚ :=
  (argsortDesc l).map (fun i => l.getD i 0)

/-- `keep_idx` as built by the loop at plotting.py lines 153-158: the
prefix of the decreasingly sorted index list whose length is determined
by the greedy difference-ratio scan. -/
def keepIdx (l : List ℚ) (p : ℚ) : List ℕ :=
  (argsortDesc l).take (keepLen p (sortedScores l))

lemma keepLen_pos (p : ℚ) (l : List ℚ) (h : l ≠ []) : 1 ≤ keepLen p l := by
  cases l with
  | nil => exact absurd rfl h
  | cons a rest =>
      cases rest with
      | nil => simp [keepLen]
      | cons b rest2 =>
          unfold keepLen
          split <;> omega

lemma keepLen_le_length (p : ℚ) : ∀ l : List ℚ, keepLen p l ≤ l.length
  | [] => Nat.le_refl 0
  | [_] => by simp [keepLen]
  | a :: b :: rest => by
      have ih := keepLen_le_length p (b :: rest)
      unfold keepLen
      split <;> (simp only [List.length_cons] at ih ⊢; omega)

lemma keepLen_iff (p : ℚ) :
    ∀ (l : List ℚ) (i : ℕ), 1 ≤ i → i < l.length →
      (i < keepLen p l ↔
        ∀ j, 1 ≤ j → j ≤ i → l.getD (j-1) 0 - l.getD j 0 < p * l.getD (j-1) 0)
  | [], _, _, h2 => absurd h2 (by simp)
  | [_], _, h1, h2 => by simp at h2; omega
  | a :: b :: rest, i, h1, h2 => by
      by_cases hc : a - b < p * a
      · rcases Nat.lt_or_ge i 2 with hi | hi
        · have hi1 : i = 1 := by omega
          subst hi1
          constructor
          · intro _ j hj1 hj2
            have : j = 1 := by omega
            subst this
            simpa [List.getD] using hc
          · intro _
            have hK : 1 ≤ keepLen p (b :: rest) := keepLen_pos p (b :: rest) (by simp)
            simp only [keepLen, if_pos hc]
            omega
        · have h2t : i - 1 < (b :: rest).length := by
            simp only [List.length_cons] at h2 ⊢
            omega
          have ih := keepLen_iff p (b :: rest) (i-1) (by omega) h2t
          simp only [keepLen, if_pos hc]
          constructor
          · intro hlt j hj1 hj2
            rcases Nat.lt_or_ge j 2 with hj | hj
            · have : j = 1 := by omega
              subst this
              simpa [List.getD] using hc
            · obtain ⟨k, rfl⟩ : ∃ k, j = k + 2 := ⟨j - 2, by omega⟩
              have := (ih.mp (by omega)) (k + 1) (by omega) (by omega)
              simpa [List.getD_cons_succ] using this
          · intro hall
            have : i - 1 < keepLen p (b :: rest) := by
              refine ih.mpr ?_
              intro j hj1 hj2
              obtain ⟨k, rfl⟩ : ∃ k, j = k + 1 := ⟨j - 1, by omega⟩
              have := hall (k + 2) (by omega) (by omega)
              simpa [List.getD_cons_succ] using this
            omega
      · constructor
        · intro hlt
          exfalso
          simp only [keepLen, if_neg hc] at hlt
          omega
        · intro hall
          exfalso
          exact hc (by simpa [List.getD] using hall 1 (Nat.le_refl 1) h1)

lemma length_argsortDesc (l : List ℚ) : (argsortDesc l).length = l.length := by
  unfold argsortDesc
  rw [(List.perm_insertionSort _ _).length_eq, List.length_range]

lemma length_sortedScores (l : List ℚ) : (sortedScores l).length = l.length := by
  unfold sortedScores
  rw [List.length_map, length_argsortDesc]

lemma sortedScores_ne_nil (l : List ℚ) (h : l ≠ []) : sortedScores l ≠ [] := by
  intro hnil
  have := length_sortedScores l
  rw [hnil] at this
  exact h (List.length_eq_zero.mp this.symm)

/-- C1: in the filter-selection stage, the kept filters form a non-empty
prefix of the decreasing score order: the top-ranked filter is always
kept, and the filter at rank `i ≥ 1` is kept exactly when every rank
`j ≤ i` satisfies the difference-ratio condition
`score[j-1] - score[j] < p * score[j-1]`. -/
theorem filter_selection_greedy (l : List ℚ) (p : ℚ) (h : l ≠ []) :
    (keepIdx l p).length = keepLen p (sortedScores l) ∧
    1 ≤ (keepIdx l p).length ∧
    (∃ t, keepIdx l p ++ t = argsortDesc l) ∧
    (keepIdx l p).head? = (argsortDesc l).head? ∧
    ∀ i, 1 ≤ i → i < l.length →
      (i < (keepIdx l p).length ↔
        ∀ j, 1 ≤ j → j ≤ i →
          (sortedScores l).getD (j-1) 0 - (sortedScores l).getD j 0
            < p * (sortedScores l).getD (j-1) 0) := by
  have hlen : (keepIdx l p).length = keepLen p (sortedScores l) := by
    unfold keepIdx
    rw [List.length_take, length_argsortDesc]
    have := keepLen_le_length p (sortedScores l)
    rw [length_sortedScores] at this
    omega
  have hpos : 1 ≤ keepLen p (sortedScores l) :=
    keepLen_pos p (sortedScores l) (sortedScores_ne_nil l h)
  refine ⟨hlen, by omega, ⟨(argsortDesc l).drop (keepLen p (sortedScores l)),
    List.take_append_drop _ _⟩, ?_, ?_⟩
  · unfold keepIdx
    cases hsa : argsortDesc l with
    | nil => simp
    | cons a rest =>
        obtain ⟨k, hk⟩ : ∃ k, keepLen p (sortedScores l) = k + 1 :=
          ⟨keepLen p (sortedScores l) - 1, by omega⟩
        rw [hk]
        simp [List.take_succ_cons]
  · intro i h1 h2
    rw [hlen]
    exact keepLen_iff p (sortedScores l) i h1 (by rw [length_sortedScores]; omega)

/-- Witness for `filter_selection_greedy` at the concrete score list
`[10, 9, 1]` with `p = 1/5`: the kept prefix has the top two ranks. -/
theorem filter_selection_greedy_witness :
    ([(10 : ℚ), 9, 1] ≠ []) ∧ 1 ≤ (keepIdx [(10 : ℚ), 9, 1] (1/5)).length :=
  ⟨by decide, (filter_selection_greedy [(10 : ℚ), 9, 1] (1/5) (by decide)).2.1⟩

/-- C3: For every cell `x` and filter with weight vector `w` and bias `b`,
the cell filter response computed by `plot_results_2class` equals
`max 0 (dotSum w x + b)` (a rectified linear projection), and in
particular every cell's response is nonnegative. -/
theorem cellResponse_eq_relu (w : List ℚ) (b : ℚ) (x : List ℚ) :
    cellResponse w b x = max 0 (dotSum w x + b) ∧ 0 ≤ cellResponse w b x := by
  unfold cellResponse
  constructor
  · by_cases h : 0 < dotSum w x + b
    · simp [h, max_eq_right h.le]
    · simp [h, max_eq_left (not_lt.mp h)]
  · by_cases h : 0 < dotSum w x + b
    · simp [h]; exact h.le
    · simp [h]

/-- C4: if a filter row has length `nmark + 1` then it splits into the
`nmark` projection weights followed by the single bias entry, the bias
read at index `nmark` by the response computation is the last entry of
the row, and therefore coincides with the output-class weight
`filters[:, -1]` read by the score computation. -/
theorem filter_row_bias_last (row : List ℚ) (nmark : ℕ)
    (h : row.length = nmark + 1) :
    (filterWeights row nmark).length = nmark ∧
    filterBias row nmark = lastWeight row ∧
    row = filterWeights row nmark ++ [filterBias row nmark] := by
  refine ⟨?_, ?_, ?_⟩
  · simp [filterWeights, h]
  · exact getD_eq_getLastD row nmark h
  · exact take_getD_append row nmark h

/-- Witness for `filter_row_bias_last` at the concrete row `[1, 2, 5]`
with `nmark = 2`. -/
theorem filter_row_bias_last_witness :
    ([(1 : ℚ), 2, 5].length = 2 + 1) ∧
    (filterWeights [(1 : ℚ), 2, 5] 2).length = 2 ∧
    filterBias [(1 : ℚ), 2, 5] 2 = lastWeight [(1 : ℚ), 2, 5] ∧
    [(1 : ℚ), 2, 5] = filterWeights [(1 : ℚ), 2, 5] 2 ++ [filterBias [(1 : ℚ), 2, 5] 2] :=
  ⟨by decide, filter_row_bias_last [(1 : ℚ), 2, 5] 2 (by decide)⟩

/-- Python `int()` applied to a rational: truncation toward zero. -/
def pyInt (q : ℚ) : ℤ :=
  q.num.tdiv (q.den : ℤ)

/-- `min_cells = int(min_cluster_freq * x1.shape[0])` (plotting.py
line 248). -/
def minCells (minFreq : ℚ) (n : ℕ) : ℤ :=
  pyInt (minFreq * (n : ℚ))

/-- `cluster_ids` (plotting.py lines 246-251): the distinct cluster
labels, discarding the DBSCAN outlier label `-1` and any cluster whose
cell count is not strictly above `min_cells`. -/
def clusterIds (clusters : List ℤ) (mc : ℤ) : List ℤ :=
  clusters.dedup.filter (fun k => k ≠ -1 ∧ mc < (clusters.count k : ℤ))

/-- `scores[j] = np.mean(g1[clusters == cl_id])` (plotting.py line 257):
the mean cell filter response over the member cells of one cluster. -/
def clusterScore (g1 : List ℚ) (clusters : List ℤ) (cid : ℤ) : ℚ :=
  let vals := (clusters.zip g1).filterMap
    (fun pr => if pr.1 = cid then some pr.2 else none)
  vals.sum / (vals.length : ℚ)

/-- The cluster re-selection stage (plotting.py lines 245-267): surviving
clusters are scored by mean response, sorted decreasingly and kept by the
same greedy difference-ratio scan.  `sorted_idx[0]` on an empty score
array raises IndexError, modelled by `none`. -/
def clusterStage (g1 : List ℚ) (clusters : List ℤ) (minFreq p : ℚ) :
    Option (List ℕ) :=
  let ids := clusterIds clusters (minCells minFreq clusters.length)
  let scores := ids.map (clusterScore g1 clusters)
  if ids = [] then none
  else some (keepIdx scores p)

lemma filterMap_if_eq (cid : ℤ) : ∀ zs : List (ℤ × ℚ),
    zs.filterMap (fun pr => if pr.1 = cid then some pr.2 else none) =
    (zs.filter (fun pr => pr.1 = cid)).map Prod.snd
  | [] => rfl
  | p :: zs => by
      have ih := filterMap_if_eq cid zs
      by_cases hc : p.1 = cid
      · simp [List.filterMap_cons, List.filter_cons, hc, ih]
      · simp [List.filterMap_cons, List.filter_cons, hc, ih]

lemma sortedScores_sorted (l : List ℚ) :
    (sortedScores l).Sorted (fun a b => b ≤ a) := by
  unfold sortedScores argsortDesc
  haveI hto : IsTotal ℕ (fun i j => l.getD j 0 ≤ l.getD i 0) :=
    ⟨fun i j => le_total _ _⟩
  haveI htr : IsTrans ℕ (fun i j => l.getD j 0 ≤ l.getD i 0) :=
    ⟨fun a b c hab hbc => le_trans hbc hab⟩
  have hs := List.sorted_insertionSort
    (fun i j => l.getD j 0 ≤ l.getD i 0) (List.range l.length)
  exact List.Pairwise.map _ (fun a b hab => hab) hs

/-- C2: when clustering is enabled, the greedy prefix rule is applied a
second time over clusters: each surviving cluster is scored by the mean
cell filter response over its member cells, clusters are sorted by
decreasing score, the top cluster is always kept, and the cluster at
rank `i ≥ 1` is kept exactly when every rank `j ≤ i` satisfies
`score[j-1] - score[j] < percentage_drop_cluster * score[j-1]`. -/
theorem cluster_selection_greedy (g1 : List ℚ) (clusters : List ℤ)
    (minFreq p : ℚ)
    (hne : clusterIds clusters (minCells minFreq clusters.length) ≠ []) :
    clusterStage g1 clusters minFreq p =
      some (keepIdx ((clusterIds clusters (minCells minFreq clusters.length)).map
        (clusterScore g1 clusters)) p) ∧
    (∀ cid, clusterScore g1 clusters cid =
      (((clusters.zip g1).filter (fun pr => pr.1 = cid)).map Prod.snd).sum /
      (((((clusters.zip g1).filter (fun pr => pr.1 = cid)).map Prod.snd)).length : ℚ)) ∧
    (sortedScores ((clusterIds clusters (minCells minFreq clusters.length)).map
      (clusterScore g1 clusters))).Sorted (fun a b => b ≤ a) ∧
    1 ≤ (keepIdx ((clusterIds clusters (minCells minFreq clusters.length)).map
      (clusterScore g1 clusters)) p).length ∧
    ∀ i, 1 ≤ i →
      i < ((clusterIds clusters (minCells minFreq clusters.length)).map
        (clusterScore g1 clusters)).length →
      (i < (keepIdx ((clusterIds clusters (minCells minFreq clusters.length)).map
          (clusterScore g1 clusters)) p).length ↔
        ∀ j, 1 ≤ j → j ≤ i →
          (sortedScores ((clusterIds clusters (minCells minFreq clusters.length)).map
            (clusterScore g1 clusters))).getD (j-1) 0 -
          (sortedScores ((clusterIds clusters (minCells minFreq clusters.length)).map
            (clusterScore g1 clusters))).getD j 0
            < p * (sortedScores ((clusterIds clusters
                (minCells minFreq clusters.length)).map
                (clusterScore g1 clusters))).getD (j-1) 0) := by
  have hsne : (clusterIds clusters (minCells minFreq clusters.length)).map
      (clusterScore g1 clusters) ≠ [] := by
    intro hnil
    exact hne (List.map_eq_nil_iff.mp hnil)
  have hsel := filter_selection_greedy
    ((clusterIds clusters (minCells minFreq clusters.length)).map
      (clusterScore g1 clusters)) p hsne
  refine ⟨?_, ?_, sortedScores_sorted _, hsel.2.1, ?_⟩
  · unfold clusterStage
    simp only [if_neg hne]
  · intro cid
    unfold clusterScore
    rw [filterMap_if_eq cid (clusters.zip g1)]
  · intro i h1 h2
    exact hsel.2.2.2.2 i h1 h2

/-- Witness for `cluster_selection_greedy`: four cells, all in cluster
`0`, with `min_cluster_freq = 1/2`; the single surviving cluster is
kept. -/
theorem cluster_selection_greedy_witness :
    (clusterIds [(0 : ℤ), 0, 0, 0] (minCells (1/2) [(0 : ℤ), 0, 0, 0].length) ≠ []) ∧
    clusterStage [(1 : ℚ), 2, 3, 4] [(0 : ℤ), 0, 0, 0] (1/2) (1/10) =
      some (keepIdx ((clusterIds [(0 : ℤ), 0, 0, 0]
        (minCells (1/2) [(0 : ℤ), 0, 0, 0].length)).map
        (clusterScore [(1 : ℚ), 2, 3, 4] [(0 : ℤ), 0, 0, 0])) (1/10)) :=
  ⟨by norm_num [clusterIds, minCells, pyInt],
    (cluster_selection_greedy [(1 : ℚ), 2, 3, 4] [(0 : ℤ), 0, 0, 0] (1/2) (1/10)
      (by norm_num [clusterIds, minCells, pyInt])).1⟩

/-- C10: the cluster stage is total only when a qualifying cluster
exists: the surviving-cluster list is empty exactly when every cluster
label is `-1` or has at most `min_cells` member cells, and in that case
the stage fails (models the IndexError from `sorted_idx[0]` on an empty
array) instead of completing. -/
theorem cluster_stage_error (g1 : List ℚ) (clusters : List ℤ) (minFreq p : ℚ) :
    (clusterIds clusters (minCells minFreq clusters.length) = [] ↔
      ∀ k ∈ clusters, k = -1 ∨
        (clusters.count k : ℤ) ≤ minCells minFreq clusters.length) ∧
    (clusterStage g1 clusters minFreq p = none ↔
      clusterIds clusters (minCells minFreq clusters.length) = []) := by
  constructor
  · unfold clusterIds
    rw [List.filter_eq_nil_iff]
    constructor
    · intro hall k hk
      have h1 := hall k (List.mem_dedup.mpr hk)
      by_cases hk1 : k = -1
      · exact Or.inl hk1
      · refine Or.inr (not_lt.mp fun hlt => ?_)
        exact h1 (by simp [hk1, hlt])
    · intro hall k hk
      have h1 := hall k (List.mem_dedup.mp hk)
      simp only [decide_eq_true_eq]
      intro hcon
      rcases h1 with h2 | h2
      · exact hcon.1 h2
      · exact absurd hcon.2 (not_lt.mpr h2)
  · unfold clusterStage
    by_cases hids : clusterIds clusters (minCells minFreq clusters.length) = []
    · simp [hids]
    · simp [hids]

/-- `np.min` of an array (numpy errors on an empty array; the empty case
is given value 0 and is never reached by the claims). -/
def listMin : List ℚ → ℚ
  | [] => 0
  | a :: l => l.foldl min a

/-- `np.max` of an array (numpy errors on an empty array; the empty case
is given value 0 and is never reached by the claims). -/
def listMax : List ℚ → ℚ
  | [] => 0
  | a :: l => l.foldl max a

/-- `np.linspace(lo, hi)` with the default 50 points:
`lo + (hi - lo) * k / 49` for `k = 0, ..., 49`. -/
def linspace (lo hi : ℚ) : List ℚ :=
  (List.range 50).map (fun k => lo + (hi - lo) * (k : ℚ) / 49)

/-- `sm.distributions.ECDF(g)` evaluated at `v`: the fraction of
responses that are `≤ v`. -/
def ecdfAt (g : List ℚ) (v : ℚ) : ℚ :=
  ((g.countP (fun u => u ≤ v)) : ℚ) / (g.length : ℚ)

/-- `gx = np.linspace(np.min(g), np.max(g))` (plotting.py line 189). -/
def gxOf (g : List ℚ) : List ℚ :=
  linspace (listMin g) (listMax g)

/-- `gy = ecdf(gx)` (plotting.py line 190). -/
def gyOf (g : List ℚ) : List ℚ :=
  (gxOf g).map (ecdfAt g)

/-- `np.where(by[:-1] - by[1:] >= cutoff)[0][0]` as an option: the first
index `i` with `l[i] - l[i+1] ≥ c`. -/
def firstDropIdx (c : ℚ) : List ℚ → Option ℕ
  | a :: b :: rest =>
      if c ≤ a - b then some 0
      else (firstDropIdx c (b :: rest)).map (fun i => i + 1)
  | _ => none

/-- The derived cell response threshold `t` (plotting.py lines 194-201):
`filter_response_thres` by default; when `response_grad_cutoff` is given
and the reversed ECDF curve has a consecutive drop of at least the
cutoff, the x-value just below the first such drop. -/
def derivedThreshold (g : List ℚ) (thres : ℚ) (cutoff : Option ℚ) : ℚ :=
  match cutoff with
  | none => thres
  | some c =>
      match firstDropIdx c (gyOf g).reverse with
      | some i => ((gxOf g).reverse).getD (i+1) 0
      | none => thres

/-- Boolean-mask selection `l[mask]` as used by numpy fancy indexing
(plotting.py lines 208-211 and 271-272). -/
def maskSelect {α : Type} (mask : List Bool) (l : List α) : List α :=
  (l.zip mask).filterMap (fun pr => if pr.2 then some pr.1 else none)

lemma maskSelect_map_zip {α : Type} (pred : ℚ → Bool) :
    ∀ (g : List ℚ) (xs : List α), g.length = xs.length →
      maskSelect (g.map pred) xs =
        ((g.zip xs).filter (fun pr => pred pr.1)).map Prod.snd
  | [], [], _ => rfl
  | [], _ :: _, h => by simp at h
  | _ :: _, [], h => by simp at h
  | v :: g, x :: xs, h => by
      have ih := maskSelect_map_zip pred g xs (by simpa using h)
      unfold maskSelect at ih ⊢
      by_cases hv : pred v
      · simp [List.filterMap_cons, List.filter_cons, hv, ih]
      · simp [List.filterMap_cons, List.filter_cons, hv, ih]

lemma firstDropIdx_some (c : ℚ) :
    ∀ (l : List ℚ) (i : ℕ), firstDropIdx c l = some i →
      i + 1 < l.length ∧ c ≤ l.getD i 0 - l.getD (i+1) 0 ∧
      ∀ k, k < i → l.getD k 0 - l.getD (k+1) 0 < c
  | [], i, h => by simp [firstDropIdx] at h
  | [a], i, h => by simp [firstDropIdx] at h
  | a :: b :: rest, i, h => by
      by_cases hc : c ≤ a - b
      · unfold firstDropIdx at h
        rw [if_pos hc] at h
        obtain rfl : i = 0 := (Option.some_inj.mp h).symm
        refine ⟨by simp only [List.length_cons]; omega, by simpa [List.getD] using hc, ?_⟩
        intro k hk
        omega
      · unfold firstDropIdx at h
        rw [if_neg hc] at h
        obtain ⟨j, hj, rfl⟩ : ∃ j, firstDropIdx c (b :: rest) = some j ∧ i = j + 1 := by
          cases hfd : firstDropIdx c (b :: rest) with
          | none => rw [hfd] at h; simp at h
          | some j =>
              rw [hfd] at h
              have h2 : some (j + 1) = some i := h
              exact ⟨j, rfl, (Option.some_inj.mp h2).symm⟩
        obtain ⟨h1, h2, h3⟩ := firstDropIdx_some c (b :: rest) j hj
        refine ⟨by simp only [List.length_cons] at h1 ⊢; omega,
          by simpa [List.getD_cons_succ] using h2, ?_⟩
        intro k hk
        cases k with
        | zero => simpa [List.getD] using not_le.mp hc
        | succ m =>
            have := h3 m (by omega)
            simpa [List.getD_cons_succ] using this

/-- C5: for every retained filter, the selected cell population consists
exactly of the cells whose response strictly exceeds the derived
threshold `t`; `t` equals `filter_response_thres` unless
`response_grad_cutoff` is given and some consecutive drop of the
reversed ECDF curve is at least the cutoff, in which case `t` is the
x-value just below the first such drop. -/
theorem selected_population_threshold {α : Type} (g : List ℚ) (xs : List α)
    (thres : ℚ) (cutoff : Option ℚ) (hlen : g.length = xs.length) :
    (maskSelect (g.map (fun v => derivedThreshold g thres cutoff < v)) xs =
      ((g.zip xs).filter
        (fun pr => derivedThreshold g thres cutoff < pr.1)).map Prod.snd) ∧
    (cutoff = none → derivedThreshold g thres cutoff = thres) ∧
    ∀ c, cutoff = some c →
      (firstDropIdx c (gyOf g).reverse = none →
        derivedThreshold g thres cutoff = thres) ∧
      ∀ i, firstDropIdx c (gyOf g).reverse = some i →
        derivedThreshold g thres cutoff = ((gxOf g).reverse).getD (i+1) 0 ∧
        i + 1 < ((gyOf g).reverse).length ∧
        c ≤ ((gyOf g).reverse).getD i 0 - ((gyOf g).reverse).getD (i+1) 0 ∧
        ∀ k, k < i →
          ((gyOf g).reverse).getD k 0 - ((gyOf g).reverse).getD (k+1) 0 < c := by
  refine ⟨maskSelect_map_zip _ g xs hlen, ?_, ?_⟩
  · intro hc
    simp [derivedThreshold, hc]
  · intro c hc
    constructor
    · intro hfd
      simp [derivedThreshold, hc, hfd]
    · intro i hfd
      refine ⟨by simp [derivedThreshold, hc, hfd], ?_⟩
      exact firstDropIdx_some c (gyOf g).reverse i hfd

/-- Witness for `selected_population_threshold`: two cells with
responses `[1, 3]`, threshold 2 and no gradient cutoff. -/
theorem selected_population_threshold_witness :
    ([(1 : ℚ), 3].length = [[(5 : ℚ)], [(6 : ℚ)]].length) ∧
    maskSelect ([(1 : ℚ), 3].map
        (fun v => derivedThreshold [(1 : ℚ), 3] 2 none < v)) [[(5 : ℚ)], [(6 : ℚ)]] =
      (([(1 : ℚ), 3].zip [[(5 : ℚ)], [(6 : ℚ)]]).filter
        (fun pr => derivedThreshold [(1 : ℚ), 3] 2 none < pr.1)).map Prod.snd :=
  ⟨by decide,
    (selected_population_threshold [(1 : ℚ), 3] [[(5 : ℚ)], [(6 : ℚ)]] 2 none
      (by decide)).1⟩

/-- The per-cell sample ids built by the loop at plotting.py lines
169-176, starting at sample index `s`: sample `i` of size `n_i`
contributes `n_i` copies of `i`. -/
def perCellIdsFrom (s : ℕ) : List ℕ → List ℕ
  | [] => []
  | n :: rest => List.replicate n s ++ perCellIdsFrom (s+1) rest

/-- `z = np.hstack(per_cell_ids)` (plotting.py line 176). -/
def perCellIds (sampleSizes : List ℕ) : List ℕ :=
  perCellIdsFrom 0 sampleSizes

/-- `freq = 100. * np.sum(zc == i) / n` (plotting.py line 310). -/
def freqOf (zc : List ℕ) (i n : ℕ) : ℚ :=
  100 * ((zc.count i : ℚ)) / (n : ℚ)

/-- The frequency-aggregation loop of plot_selected_subset (plotting.py
lines 308-315) starting at sample index `s`: appends each sample's
frequency to the first list when its phenotype is 0 and to the second
otherwise. -/
def freqGroupsFrom (zc : List ℕ) : ℕ → List (ℕ × ℕ) → List ℚ × List ℚ
  | _, [] => ([], [])
  | s, (n, y) :: rest =>
      let fg := freqGroupsFrom zc (s+1) rest
      if y = 0 then (freqOf zc s n :: fg.1, fg.2)
      else (fg.1, freqOf zc s n :: fg.2)

/-- `for i, (n, y_i) in enumerate(zip(sample_sizes, phenotypes))`
(plotting.py line 309). -/
def freqGroups (zc : List ℕ) (sampleSizes phenotypes : List ℕ) :
    List ℚ × List ℚ :=
  freqGroupsFrom zc 0 (sampleSizes.zip phenotypes)

lemma maskSelect_sublist {α : Type} : ∀ (mask : List Bool) (l : List α),
    List.Sublist (maskSelect mask l) l
  | _, [] => by simp [maskSelect]
  | [], _ :: _ => by simp [maskSelect]
  | b :: mask, a :: l => by
      have ih := maskSelect_sublist mask l
      cases b with
      | true => simpa [maskSelect, List.filterMap_cons] using ih.cons₂ a
      | false => simpa [maskSelect, List.filterMap_cons] using ih.cons a

lemma count_perCellIdsFrom_lt : ∀ (ns : List ℕ) (s i : ℕ), i < s →
    (perCellIdsFrom s ns).count i = 0
  | [], _, _, _ => rfl
  | n :: rest, s, i, h => by
      have ih := count_perCellIdsFrom_lt rest (s+1) i (by omega)
      have hne : s ≠ i := by omega
      simp [perCellIdsFrom, List.count_append, ih, List.count_replicate, hne]

lemma count_perCellIdsFrom : ∀ (ns : List ℕ) (s i : ℕ), s ≤ i →
    i < s + ns.length → (perCellIdsFrom s ns).count i = ns.getD (i - s) 0
  | [], s, i, h1, h2 => by simp at h2; omega
  | n :: rest, s, i, h1, h2 => by
      by_cases hi : i = s
      · subst hi
        have h0 := count_perCellIdsFrom_lt rest (i+1) i (by omega)
        simp [perCellIdsFrom, List.count_append, h0, List.count_replicate]
      · have ih := count_perCellIdsFrom rest (s+1) i (by omega)
          (by simp only [List.length_cons] at h2; omega)
        obtain ⟨k, hk⟩ : ∃ k, i - s = k + 1 := ⟨i - s - 1, by omega⟩
        have hks : i - (s+1) = k := by omega
        rw [hks] at ih
        simp only [perCellIdsFrom, List.count_append, ih, hk,
          List.getD_cons_succ, List.count_replicate]
        have hne : s ≠ i := fun hsi => hi hsi.symm
        simp [hne]

lemma freqOf_le_of_count_le (zc : List ℕ) (i n : ℕ) (h : zc.count i ≤ n) :
    freqOf zc i n ≤ 100 := by
  unfold freqOf
  rcases Nat.eq_zero_or_pos n with hn | hn
  · subst hn
    have : zc.count i = 0 := by omega
    simp [this]
  · have hn' : (0 : ℚ) < (n : ℚ) := by exact_mod_cast hn
    rw [div_le_iff₀ hn']
    have hc : (zc.count i : ℚ) ≤ (n : ℚ) := by exact_mod_cast h
    nlinarith

/-- C9: the `assert freq <= 100` in plot_selected_subset never fails:
the selected cells attributed to sample `i` (selected by the response
mask and optionally a cluster mask) are among the cells tagged with id
`i`, whose count in `z` is exactly the sample size `n_i`, hence
`100 * count / n_i ≤ 100`. -/
theorem selected_freq_assert_safe (ns : List ℕ) (m1 m2 : List Bool) (i : ℕ)
    (hi : i < ns.length) :
    (perCellIds ns).count i = ns.getD i 0 ∧
    (maskSelect m2 (maskSelect m1 (perCellIds ns))).count i ≤ ns.getD i 0 ∧
    freqOf (maskSelect m2 (maskSelect m1 (perCellIds ns))) i (ns.getD i 0) ≤ 100 := by
  have hz : (perCellIds ns).count i = ns.getD i 0 := by
    have := count_perCellIdsFrom ns 0 i (Nat.zero_le i) (by omega)
    simpa [perCellIds] using this
  have hle : (maskSelect m2 (maskSelect m1 (perCellIds ns))).count i ≤ ns.getD i 0 := by
    calc (maskSelect m2 (maskSelect m1 (perCellIds ns))).count i
        ≤ (maskSelect m1 (perCellIds ns)).count i :=
          (maskSelect_sublist m2 _).count_le i
      _ ≤ (perCellIds ns).count i := (maskSelect_sublist m1 _).count_le i
      _ = ns.getD i 0 := hz
  exact ⟨hz, hle, freqOf_le_of_count_le _ i _ hle⟩

/-- Witness for `selected_freq_assert_safe`: two samples of sizes 2 and
1, with concrete masks. -/
theorem selected_freq_assert_safe_witness :
    (0 < [2, 1].length) ∧
    freqOf (maskSelect [true, false, true]
      (maskSelect [true, true, true] (perCellIds [2, 1]))) 0 ([2, 1].getD 0 0) ≤ 100 :=
  ⟨by decide,
    (selected_freq_assert_safe [2, 1] [true, true, true] [true, false, true] 0
      (by decide)).2.2⟩

lemma freqGroupsFrom_spec (zc : List ℕ) :
    ∀ (ps : List (ℕ × ℕ)) (s : ℕ),
      (freqGroupsFrom zc s ps).1 =
        ((List.enumFrom s ps).filter (fun pr => pr.2.2 = 0)).map
          (fun pr => 100 * ((zc.count pr.1 : ℚ)) / (pr.2.1 : ℚ)) ∧
      (freqGroupsFrom zc s ps).2 =
        ((List.enumFrom s ps).filter (fun pr => ¬ pr.2.2 = 0)).map
          (fun pr => 100 * ((zc.count pr.1 : ℚ)) / (pr.2.1 : ℚ))
  | [], s => ⟨rfl, rfl⟩
  | (n, y) :: ps, s => by
      have ih := freqGroupsFrom_spec zc ps (s+1)
      by_cases hy : y = 0
      · constructor
        · simp [freqGroupsFrom, List.enumFrom, List.filter_cons, hy, ih.1, freqOf]
        · simp [freqGroupsFrom, List.enumFrom, List.filter_cons, hy, ih.2, freqOf]
      · constructor
        · simp [freqGroupsFrom, List.enumFrom, List.filter_cons, hy, ih.1, freqOf]
        · simp [freqGroupsFrom, List.enumFrom, List.filter_cons, hy, ih.2, freqOf]

/-- C7: per-class population frequencies: for every sample `i` with
`n_i` cells, its frequency is `100 * (number of selected cells from
sample i) / n_i`, and it is assigned to group a exactly when the
sample's phenotype is 0 and to group b otherwise. -/
theorem freq_group_assignment (zc : List ℕ) (ns ys : List ℕ) :
    (freqGroups zc ns ys).1 =
      ((List.enumFrom 0 (ns.zip ys)).filter (fun pr => pr.2.2 = 0)).map
        (fun pr => 100 * ((zc.count pr.1 : ℚ)) / (pr.2.1 : ℚ)) ∧
    (freqGroups zc ns ys).2 =
      ((List.enumFrom 0 (ns.zip ys)).filter (fun pr => ¬ pr.2.2 = 0)).map
        (fun pr => 100 * ((zc.count pr.1 : ℚ)) / (pr.2.1 : ℚ)) :=
  freqGroupsFrom_spec zc (ns.zip ys) 0

/-- The fields of the `results` dictionary read by the filter-selection
and return-value computation of plot_results_2class. -/
structure AnalysisResults where
  w_best_net : List (List ℚ)
  selected_filters : Option (List (List ℚ))
  dist : Option (List (List ℚ))
  scaler : Option (List ℚ → List ℚ)

/-- `filters` (plotting.py lines 123-131): the consensus filters when
present, otherwise the weights of the best network. -/
def filtersOf (r : AnalysisResults) : List (List ℚ) :=
  match r.selected_filters with
  | some w => w
  | none => r.w_best_net

/-- `np.max(dist, axis=1)` for one row (numpy errors on an empty row;
the empty case is given value 0 and is never reached by the claims). -/
def rowMax : List ℚ → ℚ
  | [] => 0
  | a :: rest => rest.foldl max a

/-- `np.sign`. -/
def sign (q : ℚ) : ℚ :=
  if 0 < q then 1 else if q < 0 then -1 else 0

/-- The discriminative score vector `dist` (plotting.py lines 141-150):
the row maxima of `results['dist']` when present, otherwise the absolute
last weight of each filter; multiplied elementwise by the sign of the
last weight when `positive_filters_only` is set. -/
def filterScores (r : AnalysisResults) (posOnly : Bool) : List ℚ :=
  let base := match r.dist with
    | some d => d.map rowMax
    | none => (filtersOf r).map (fun row => |lastWeight row|)
  if posOnly then
    List.zipWith (fun s row => s * sign (lastWeight row)) base (filtersOf r)
  else base

/-- `x = results['scaler'].transform(x)` when a scaler is present
(plotting.py lines 178-179). -/
def scaledCells (r : AnalysisResults) (cells : List (List ℚ)) : List (List ℚ) :=
  match r.scaler with
  | some f => cells.map f
  | none => cells

/-- The response vector `g` of all cells for filter `i` (plotting.py
lines 183-186). -/
def filterResponses (r : AnalysisResults) (cells : List (List ℚ))
    (nmark : ℕ) (i : ℕ) : List ℚ :=
  (scaledCells r cells).map
    (cellResponse (filterWeights ((filtersOf r).getD i []) nmark)
                  (filterBias ((filtersOf r).getD i []) nmark))

/-- `return_filters` as accumulated by the loop at plotting.py lines
181-217: for each kept filter, the pair `(i_filter, t)` is appended
unless the filter selects no cell, in which case it is skipped. -/
def returnFilters (r : AnalysisResults) (cells : List (List ℚ)) (nmark : ℕ)
    (pDrop thres : ℚ) (cutoff : Option ℚ) (posOnly : Bool) : List (ℕ × ℚ) :=
  (keepIdx (filterScores r posOnly) pDrop).filterMap (fun i =>
    let g := filterResponses r cells nmark i
    let t := derivedThreshold g thres cutoff
    if 0 < g.countP (fun v => t < v) then some (i, t) else none)

lemma getD_map {α β : Type} (f : α → β) (da : α) (db : β) :
    ∀ (l : List α) (i : ℕ), i < l.length → (l.map f).getD i db = f (l.getD i da)
  | [], i, h => by simp at h
  | a :: l, 0, _ => rfl
  | a :: l, i+1, h => by
      simp only [List.map_cons, List.getD_cons_succ]
      exact getD_map f da db l i (by simpa using h)

lemma getD_zipWith {α β γ : Type} (f : α → β → γ) (da : α) (db : β) (dc : γ) :
    ∀ (l1 : List α) (l2 : List β) (i : ℕ), i < l1.length → i < l2.length →
      (List.zipWith f l1 l2).getD i dc = f (l1.getD i da) (l2.getD i db)
  | [], _, i, h1, _ => by simp at h1
  | _ :: _, [], i, _, h2 => by simp at h2
  | a :: l1, b :: l2, 0, _, _ => rfl
  | a :: l1, b :: l2, i+1, h1, h2 => by
      simp only [List.zipWith_cons_cons, List.getD_cons_succ]
      exact getD_zipWith f da db dc l1 l2 i (by simpa using h1) (by simpa using h2)

lemma argsortDesc_pairwise (l : List ℚ) :
    (argsortDesc l).Pairwise (fun i j => l.getD j 0 ≤ l.getD i 0) := by
  unfold argsortDesc
  haveI : IsTotal ℕ (fun i j => l.getD j 0 ≤ l.getD i 0) :=
    ⟨fun i j => le_total _ _⟩
  haveI : IsTrans ℕ (fun i j => l.getD j 0 ≤ l.getD i 0) :=
    ⟨fun a b c hab hbc => le_trans hbc hab⟩
  exact List.sorted_insertionSort _ _

lemma filterMap_opt_fst_sublist (F : ℕ → Option (ℕ × ℚ))
    (hF : ∀ i pr, F i = some pr → pr.1 = i) :
    ∀ l : List ℕ, List.Sublist ((l.filterMap F).map Prod.fst) l
  | [] => by simp
  | i :: l => by
      have ih := filterMap_opt_fst_sublist F hF l
      cases hFi : F i with
      | none =>
          simp only [List.filterMap_cons, hFi]
          exact ih.cons i
      | some pr =>
          simp only [List.filterMap_cons, hFi, List.map_cons, hF i pr hFi]
          exact ih.cons₂ i

/-- C6: plot_results_2class returns pairs (filter index, response
threshold) ordered by decreasing discriminative score; each filter's
score is the row maximum of `results['dist']` when present and the
absolute last weight otherwise, multiplied by the sign of the last
weight when `positive_filters_only` is set. -/
theorem return_filters_ranked (r : AnalysisResults) (cells : List (List ℚ))
    (nmark : ℕ) (pDrop thres : ℚ) (cutoff : Option ℚ) (posOnly : Bool) :
    ((returnFilters r cells nmark pDrop thres cutoff posOnly).map
      (fun pr => (filterScores r posOnly).getD pr.1 0)).Sorted
        (fun a b => b ≤ a) ∧
    (∀ pr, pr ∈ returnFilters r cells nmark pDrop thres cutoff posOnly →
      pr.2 = derivedThreshold (filterResponses r cells nmark pr.1) thres cutoff ∧
      pr.1 ∈ keepIdx (filterScores r posOnly) pDrop) ∧
    (∀ d, r.dist = some d → d.length = (filtersOf r).length →
      ∀ i, i < (filtersOf r).length →
        (filterScores r posOnly).getD i 0 =
          rowMax (d.getD i []) *
            (if posOnly then sign (lastWeight ((filtersOf r).getD i [])) else 1)) ∧
    (r.dist = none →
      ∀ i, i < (filtersOf r).length →
        (filterScores r posOnly).getD i 0 =
          |lastWeight ((filtersOf r).getD i [])| *
            (if posOnly then sign (lastWeight ((filtersOf r).getD i [])) else 1)) := by
  set F := fun i =>
    let g := filterResponses r cells nmark i
    let t := derivedThreshold g thres cutoff
    if 0 < g.countP (fun v => t < v) then some (i, t) else none with hFdef
  have hF : ∀ i pr, F i = some pr →
      pr = (i, derivedThreshold (filterResponses r cells nmark i) thres cutoff) := by
    intro i pr h
    by_cases hc : 0 < (filterResponses r cells nmark i).countP
        (fun v => derivedThreshold (filterResponses r cells nmark i) thres cutoff < v)
    · rw [hFdef] at h
      simp only [if_pos hc] at h
      exact (Option.some_inj.mp h).symm
    · rw [hFdef] at h
      simp only [if_neg hc] at h
      exact absurd h (by simp)
  refine ⟨?_, ?_, ?_, ?_⟩
  · have hpw : (keepIdx (filterScores r posOnly) pDrop).Pairwise
        (fun i j => (filterScores r posOnly).getD j 0 ≤
          (filterScores r posOnly).getD i 0) :=
      (argsortDesc_pairwise (filterScores r posOnly)).sublist
        (List.take_sublist _ _)
    have hsub := filterMap_opt_fst_sublist F
      (fun i pr h => by rw [hF i pr h]) (keepIdx (filterScores r posOnly) pDrop)
    have hpw2 := hpw.sublist hsub
    have hmm : (returnFilters r cells nmark pDrop thres cutoff posOnly).map
        (fun pr => (filterScores r posOnly).getD pr.1 0) =
        (((keepIdx (filterScores r posOnly) pDrop).filterMap F).map Prod.fst).map
          (fun i => (filterScores r posOnly).getD i 0) := by
      rw [List.map_map]
      rfl
    rw [hmm]
    exact List.Pairwise.map _ (fun a b hab => hab) hpw2
  · intro pr hpr
    obtain ⟨i, hi, hFi⟩ := List.mem_filterMap.mp hpr
    obtain rfl := hF i pr hFi
    exact ⟨rfl, hi⟩
  · intro d hd hdl i hi
    unfold filterScores
    rw [hd]
    cases posOnly with
    | false =>
        simp only [Bool.false_eq_true, if_false, mul_one]
        exact getD_map rowMax [] 0 d i (by omega)
    | true =>
        simp only [if_true]
        rw [getD_zipWith _ 0 [] 0 _ _ i (by rw [List.length_map]; omega) hi,
          getD_map rowMax [] 0 d i (by omega)]
  · intro hd i hi
    unfold filterScores
    rw [hd]
    cases posOnly with
    | false =>
        simp only [Bool.false_eq_true, if_false, mul_one]
        exact getD_map (fun row => |lastWeight row|) [] 0 (filtersOf r) i hi
    | true =>
        simp only [if_true]
        rw [getD_zipWith _ 0 [] 0 _ _ i (by rw [List.length_map]; omega) hi,
          getD_map (fun row => |lastWeight row|) [] 0 (filtersOf r) i hi]

/-- C8: a filter kept by the drop rule appears in the returned list if
and only if at least one cell's response strictly exceeds its derived
threshold; a kept filter selecting zero cells contributes no entry. -/
theorem kept_filter_returned_iff (r : AnalysisResults) (cells : List (List ℚ))
    (nmark : ℕ) (pDrop thres : ℚ) (cutoff : Option ℚ) (posOnly : Bool) (i : ℕ) :
    (∃ t, (i, t) ∈ returnFilters r cells nmark pDrop thres cutoff posOnly) ↔
      i ∈ keepIdx (filterScores r posOnly) pDrop ∧
      0 < (filterResponses r cells nmark i).countP
        (fun v => derivedThreshold (filterResponses r cells nmark i) thres cutoff < v) := by
  constructor
  · rintro ⟨t, ht⟩
    obtain ⟨j, hj, hFj⟩ := List.mem_filterMap.mp ht
    by_cases hc : 0 < (filterResponses r cells nmark j).countP
        (fun v => derivedThreshold (filterResponses r cells nmark j) thres cutoff < v)
    · simp only [if_pos hc] at hFj
      obtain ⟨rfl, rfl⟩ : j = i ∧
          derivedThreshold (filterResponses r cells nmark j) thres cutoff = t := by
        have := Option.some_inj.mp hFj
        exact ⟨congrArg Prod.fst this, congrArg Prod.snd this⟩
      exact ⟨hj, hc⟩
    · simp only [if_neg hc] at hFj
      exact absurd hFj (by simp)
  · rintro ⟨hkeep, hc⟩
    refine ⟨derivedThreshold (filterResponses r cells nmark i) thres cutoff, ?_⟩
    refine List.mem_filterMap.mpr ⟨i, hkeep, ?_⟩
    simp only [if_pos hc]

end CellCnn
